import Mathlib

/-
Verification of the quantum-tunnelling simulation engine of this repository
(app/physics/calculator.py together with its callers in app/main.py and
app/api/routes.py), as a shallow embedding into Lean:

* Python floats are modelled as real numbers `ℝ`, complex amplitudes as `ℂ`;
  `np.abs(z)**2` is `Complex.normSq z`.
* numpy arrays over the interior grid are functions `Fin M → ℂ` (with
  `M = N - 1` interior points) or lists.
* The eigendecomposition primitive `np.linalg.eigh` is treated as a supplied
  capability: its outputs (eigenvalue vector `E`, eigenvector rows `psi`)
  are universally quantified inputs, constrained only by the contract
  hypotheses a given theorem states.
* Byte strings are lists of naturals (one per byte); the 4-byte encoding of a
  float32 value is an abstract parameter `f32` producing 4 bytes per scalar.
-/

namespace QTunnel

/-- Downsampling stride (calculator.py lines 119-122):
`num_time_steps // max_frames` when `num_time_steps > max_frames`, else 1. -/
def downsampleStride (numTimeSteps maxFrames : ℕ) : ℕ :=
  if maxFrames < numTimeSteps then numTimeSteps / maxFrames else 1

/-- Python `range(0, n, s)` for a positive stride `s`: the naturals
`0, s, 2·s, ...` strictly below `n`; there are `⌈n / s⌉` of them. -/
def pyRange (n s : ℕ) : List ℕ :=
  List.range' 0 ((n + s - 1) / s) s

/-- Step indices at which frames are collected by the loop of calculator.py
lines 125-138: `for step in range(0, num_time_steps, stride)` with an early
`break` as soon as `max_frames` frames have been appended. -/
def emittedSteps (numTimeSteps maxFrames : ℕ) : List ℕ :=
  (pyRange numTimeSteps (downsampleStride numTimeSteps maxFrames)).take maxFrames

lemma range'_eq_map (s : ℕ) : ∀ (n a : ℕ),
    List.range' a n s = (List.range n).map (fun k => a + k * s) := by
  intro n
  induction n with
  | zero => intro a; simp
  | succ m ih =>
    intro a
    rw [List.range'_succ, List.range_succ_eq_map, List.map_cons, ih (a + s)]
    simp only [List.map_map]
    congr 1
    · omega
    · apply List.map_congr_left
      intro k _
      simp only [Function.comp_apply, Nat.succ_mul]
      ring

lemma emittedSteps_of_lt {n mf : ℕ} (hmf : 0 < mf) (h : mf < n) :
    emittedSteps n mf = (List.range mf).map (fun k => k * (n / mf)) := by
  have hstride : downsampleStride n mf = n / mf := by
    unfold downsampleStride
    rw [if_pos h]
  have hs : 0 < n / mf := Nat.div_pos h.le hmf
  have hmul : mf * (n / mf) ≤ n := by
    have := Nat.div_mul_le_self n mf
    calc mf * (n / mf) = n / mf * mf := by ring
    _ ≤ n := this
  have hL : mf ≤ (n + n / mf - 1) / (n / mf) := by
    rw [Nat.le_div_iff_mul_le hs]
    omega
  unfold emittedSteps pyRange
  rw [hstride, range'_eq_map, ← List.map_take, List.take_range]
  have hmin : min mf ((n + n / mf - 1) / (n / mf)) = mf := min_eq_left hL
  rw [hmin]
  apply List.map_congr_left
  intro k _
  omega

lemma emittedSteps_of_le {n mf : ℕ} (h : n ≤ mf) :
    emittedSteps n mf = List.range n := by
  have hstride : downsampleStride n mf = 1 := by
    unfold downsampleStride
    rw [if_neg (by omega)]
  unfold emittedSteps pyRange
  rw [hstride]
  have : (n + 1 - 1) / 1 = n := by omega
  rw [this, ← List.range_eq_range', List.take_range, min_eq_right h]

/-- C2: if `total_steps > max_frames` the stride is the floor quotient
`total_steps / max_frames` and exactly `max_frames` frames are emitted at the
step indices `0, stride, 2·stride, ...`; if `total_steps ≤ max_frames` every
step index `0, ..., total_steps - 1` is emitted; in particular for 1000 steps
and 100 frames the stride is 10 and the emitted indices are `0, 10, ..., 990`. -/
theorem C2_downsampling_policy (n mf : ℕ) (hmf : 0 < mf) :
    (mf < n → downsampleStride n mf = n / mf ∧
      emittedSteps n mf = (List.range mf).map (fun k => k * (n / mf)) ∧
      (emittedSteps n mf).length = mf) ∧
    (n ≤ mf → emittedSteps n mf = List.range n) ∧
    downsampleStride 1000 100 = 10 ∧
    emittedSteps 1000 100 = (List.range 100).map (fun k => k * 10) ∧
    (emittedSteps 1000 100).length = 100 := by
  refine ⟨fun h => ⟨?_, ?_, ?_⟩, fun h => emittedSteps_of_le h, ?_, ?_, ?_⟩
  · unfold downsampleStride
    rw [if_pos h]
  · exact emittedSteps_of_lt hmf h
  · rw [emittedSteps_of_lt hmf h]
    simp
  · decide
  · decide
  · decide

/-- Witness for C2 at the concrete input `total_steps = 1000`,
`max_frames = 100` named by the claim. -/
theorem C2_downsampling_policy_witness :
    emittedSteps 1000 100 = (List.range 100).map (fun k => k * 10) :=
  (C2_downsampling_policy 1000 100 (by norm_num)).2.2.2.1

/-- Events of one run of `quantum_tunneling_simulation_binary`, in program
order: the single `np.linalg.eigh` invocation (calculator.py line 102),
then one emission per collected frame (lines 125-138). -/
inductive SimEvent where
  | eigCall : SimEvent
  | frameEmit : ℕ → SimEvent
deriving DecidableEq

/-- Trace of decomposition calls and frame emissions of one simulation run:
the decomposition is performed before the frame loop, and the loop body
(reconstruction of `Psi` at one sampled step) emits a frame and performs no
decomposition. -/
def simTrace (numTimeSteps maxFrames : ℕ) : List SimEvent :=
  SimEvent.eigCall :: (emittedSteps numTimeSteps maxFrames).map SimEvent.frameEmit

/-- C5: whatever the step count and frame bound (hence whatever the number of
emitted frames), the eigendecomposition primitive is invoked exactly once per
run, and the per-frame part of the trace contains no decomposition call. -/
theorem C5_single_decomposition (n mf : ℕ) :
    (simTrace n mf).count SimEvent.eigCall = 1 ∧
    ((emittedSteps n mf).map SimEvent.frameEmit).count SimEvent.eigCall = 0 := by
  have h0 : ((emittedSteps n mf).map SimEvent.frameEmit).count SimEvent.eigCall = 0 := by
    rw [List.count_eq_zero]
    simp
  refine ⟨?_, h0⟩
  unfold simTrace
  rw [List.count_cons]
  simp [h0]

/-- Grid spacing `dx = x_full[1] - x_full[0]` of `np.linspace(xmin, xmax, N+1)`
(calculator.py lines 71-72). -/
noncomputable def gridDx (xmin xmax : ℝ) (N : ℕ) : ℝ :=
  (xmax - xmin) / N

/-- Full-grid point `i` of `np.linspace(xmin, xmax, N+1)`. -/
noncomputable def xFull (xmin xmax : ℝ) (N : ℕ) (i : ℕ) : ℝ :=
  xmin + i * gridDx xmin xmax N

/-- Interior-grid point `i`, i.e. `x_full[1:-1][i] = x_full[i+1]`
(calculator.py line 75). -/
noncomputable def xInner (xmin xmax : ℝ) (N : ℕ) (i : ℕ) : ℝ :=
  xFull xmin xmax N (i + 1)

/-- Barrier height `V0 = momentum**2 / (2 * mass)` (calculator.py line 79). -/
noncomputable def barrierHeight (momentum mass : ℝ) : ℝ :=
  momentum ^ 2 / (2 * mass)

/-- Potential value at one grid point (calculator.py lines 82-85): `V0` when
`barrier_start < x and x < barrier_end`, else the initial 0. -/
noncomputable def potentialAt (momentum mass barrierStart barrierEnd x : ℝ) : ℝ :=
  if barrierStart < x ∧ x < barrierEnd then barrierHeight momentum mass else 0

/-- Potential array of the binary variant, on the interior grid of `N - 1`
points (calculator.py lines 82-85 applied to `x_inner`). -/
noncomputable def potentialInner (momentum mass barrierStart barrierEnd xmin xmax : ℝ)
    (N : ℕ) : List ℝ :=
  List.ofFn (fun i : Fin (N - 1) =>
    potentialAt momentum mass barrierStart barrierEnd (xInner xmin xmax N i))

/-- Potential array returned by the JSON variant: computed on the FULL grid of
`N + 1` points (calculator.py lines 212-215) and returned whole as
`"potential": V.tolist()` (line 267). -/
noncomputable def potentialFull (momentum mass barrierStart barrierEnd xmin xmax : ℝ)
    (N : ℕ) : List ℝ :=
  List.ofFn (fun i : Fin (N + 1) =>
    potentialAt momentum mass barrierStart barrierEnd (xFull xmin xmax N i))

/-- Raw (pre-normalization) Gaussian wave packet at one grid point
(calculator.py lines 88-89):
`exp(-((x - x0)**2) / sigma**2) * exp(1j * momentum * (x - x0))`. -/
noncomputable def psi0raw (sigma x0 momentum x : ℝ) : ℂ :=
  (Real.exp (-(x - x0) ^ 2 / sigma ^ 2) : ℂ) *
    Complex.exp (Complex.I * (momentum : ℂ) * ((x - x0 : ℝ) : ℂ))

/-- Normalization constant `A = np.sum(np.abs(Psi0)**2 * dx)`
(calculator.py line 92). -/
noncomputable def psi0A {M : ℕ} (sigma x0 momentum dx : ℝ) (x : Fin M → ℝ) : ℝ :=
  ∑ i, Complex.normSq (psi0raw sigma x0 momentum (x i)) * dx

/-- Normalized initial wavefunction `Psi0 = Psi0 / np.sqrt(A)`
(calculator.py line 93). -/
noncomputable def psi0 {M : ℕ} (sigma x0 momentum dx : ℝ) (x : Fin M → ℝ) : Fin M → ℂ :=
  fun i => psi0raw sigma x0 momentum (x i) /
    ((Real.sqrt (psi0A sigma x0 momentum dx x) : ℝ) : ℂ)

/-- Eigenvector renormalization constant of calculator.py line 106: it is
computed from row 0 ONLY, `A = np.sum(np.abs(psi[0])**2 * dx)`. -/
noncomputable def eigNormA {m : ℕ} (dx : ℝ) (psi : Fin (m + 1) → Fin (m + 1) → ℂ) : ℝ :=
  ∑ j, Complex.normSq (psi 0 j) * dx

/-- Renormalized eigenvector rows, `psi = psi / np.sqrt(A)` (calculator.py
line 107): every row is divided by the same scalar derived from row 0. -/
noncomputable def eigNormed {m : ℕ} (dx : ℝ) (psi : Fin (m + 1) → Fin (m + 1) → ℂ) :
    Fin (m + 1) → Fin (m + 1) → ℂ :=
  fun i j => psi i j / ((Real.sqrt (eigNormA dx psi) : ℝ) : ℂ)

/-- Expansion coefficients `c[i] = np.sum(np.conj(psi[i]) * Psi0 * dx)`
(calculator.py lines 110-112). -/
noncomputable def coeff {m : ℕ} (dx : ℝ) (psiN : Fin (m + 1) → Fin (m + 1) → ℂ)
    (Psi0 : Fin (m + 1) → ℂ) : Fin (m + 1) → ℂ :=
  fun i => ∑ j, (starRingEnd ℂ) (psiN i j) * Psi0 j * (dx : ℂ)

/-- Spectral reconstruction at time `t` (calculator.py lines 128-132):
`Psi(t) = sum(c[i] * psi[i] * exp(-1j * E[i] * t / hbar))`. -/
noncomputable def psiAt {m : ℕ} (hbar : ℝ) (E : Fin (m + 1) → ℝ)
    (psiN : Fin (m + 1) → Fin (m + 1) → ℂ) (c : Fin (m + 1) → ℂ) (t : ℝ) :
    Fin (m + 1) → ℂ :=
  fun j => ∑ i, c i * psiN i j * Complex.exp (-Complex.I * (E i : ℂ) * (t : ℂ) / (hbar : ℂ))

/-- Total probability `np.sum(np.abs(Psi)**2 * dx)` of a state on the interior
grid, the quantity the spec's conservation property is about. -/
noncomputable def totalProb {M : ℕ} (dx : ℝ) (Psi : Fin M → ℂ) : ℝ :=
  ∑ j, Complex.normSq (Psi j) * dx

/-- Little-endian 4-byte encoding of a `uint32`, as produced by
`struct.pack('I', n)` (calculator.py lines 146-147). -/
def u32le (n : ℕ) : List ℕ :=
  [n % 256, n / 256 % 256, n / 256 ^ 2 % 256, n / 256 ^ 3 % 256]

/-- Little-endian decoding of 4 bytes back to the encoded `uint32`. -/
def decodeU32le : List ℕ → ℕ
  | [b0, b1, b2, b3] => b0 + 256 * b1 + 256 ^ 2 * b2 + 256 ^ 3 * b3
  | _ => 0

/-- Byte encoding of one frame (calculator.py lines 154-158): the real parts,
then the imaginary parts, each value as 4 float32 bytes via `f32`. -/
def encodeFrame (f32 : ℝ → List ℕ) (fr : List ℝ × List ℝ) : List ℕ :=
  fr.1.flatMap f32 ++ fr.2.flatMap f32

/-- The whole binary payload (calculator.py lines 142-161): `uint32`
frame count, `uint32` grid size, the grid positions, then the frames in
order. `f32` is the 4-byte float32 encoding of one scalar. -/
def encodeBinary (f32 : ℝ → List ℕ) (grid : List ℝ) (frames : List (List ℝ × List ℝ)) :
    List ℕ :=
  u32le frames.length ++ u32le grid.length ++ grid.flatMap f32 ++
    frames.flatMap (encodeFrame f32)

/-- The interior grid as the list serialized at calculator.py lines 150-151. -/
noncomputable def innerGridList (xmin xmax : ℝ) (N : ℕ) : List ℝ :=
  List.ofFn (fun i : Fin (N - 1) => xInner xmin xmax N i)

/-- The frames collected by the loop of calculator.py lines 125-138, already
split into (real parts, imaginary parts) as lines 154-158 serialize them. -/
noncomputable def simFrames {m : ℕ} (hbar : ℝ) (E : Fin (m + 1) → ℝ)
    (psiN : Fin (m + 1) → Fin (m + 1) → ℂ) (c : Fin (m + 1) → ℂ) (dt : ℝ)
    (numTimeSteps maxFrames : ℕ) : List (List ℝ × List ℝ) :=
  (emittedSteps numTimeSteps maxFrames).map (fun step : ℕ =>
    (List.ofFn (fun j => (psiAt hbar E psiN c ((step : ℝ) * dt) j).re),
     List.ofFn (fun j => (psiAt hbar E psiN c ((step : ℝ) * dt) j).im)))

/-- The full binary payload of `quantum_tunneling_simulation_binary` for a run
with `N = m + 2` grid intervals, hence `M = m + 1` interior points, given the
outputs `E`, `psiN`, `c` of the upstream pipeline stages. -/
noncomputable def binaryPayload (f32 : ℝ → List ℕ) (xmin xmax : ℝ) {m : ℕ}
    (hbar : ℝ) (E : Fin (m + 1) → ℝ) (psiN : Fin (m + 1) → Fin (m + 1) → ℂ)
    (c : Fin (m + 1) → ℂ) (dt : ℝ) (numTimeSteps maxFrames : ℕ) : List ℕ :=
  encodeBinary f32 (innerGridList xmin xmax (m + 2))
    (simFrames hbar E psiN c dt numTimeSteps maxFrames)

/-- The fixed-stride layout the spec asserts of the binary payload `out`:
total size, little-endian header fields at offsets 0 and 4, grid floats at
offset 8, frame `k`'s real parts at offset `8 + 4M + k·8M` and its imaginary
parts `4M` bytes later. -/
def layoutOK (out : List ℕ) (f32 : ℝ → List ℕ) (grid : List ℝ)
    (frames : List (List ℝ × List ℝ)) : Prop :=
  out.length = 8 + 4 * grid.length + frames.length * (8 * grid.length) ∧
  out.take 4 = u32le frames.length ∧
  decodeU32le (out.take 4) = frames.length ∧
  (out.drop 4).take 4 = u32le grid.length ∧
  decodeU32le ((out.drop 4).take 4) = grid.length ∧
  (out.drop 8).take (4 * grid.length) = grid.flatMap f32 ∧
  ∀ k, k < frames.length →
    ((out.drop (8 + 4 * grid.length + k * (8 * grid.length))).take (4 * grid.length) =
        (frames.getD k ([], [])).1.flatMap f32 ∧
      (out.drop (8 + 4 * grid.length + k * (8 * grid.length) + 4 * grid.length)).take
          (4 * grid.length) =
        (frames.getD k ([], [])).2.flatMap f32)

lemma flatMap_length_const {α : Type} (f : α → List ℕ) (cnt : ℕ) :
    ∀ l : List α, (∀ a ∈ l, (f a).length = cnt) → (l.flatMap f).length = l.length * cnt := by
  intro l
  induction l with
  | nil => simp
  | cons a l ih =>
    intro h
    simp only [List.flatMap_cons, List.length_append, List.length_cons]
    rw [ih (fun b hb => h b (List.mem_cons_of_mem a hb)), h a (List.mem_cons_self a l)]
    ring

lemma u32le_length (n : ℕ) : (u32le n).length = 4 := rfl

lemma decode_u32le (n : ℕ) (h : n < 2 ^ 32) : decodeU32le (u32le n) = n := by
  simp only [u32le, decodeU32le]
  omega

lemma flatMap_frame_segment (f32 : ℝ → List ℕ) (cnt : ℕ) :
    ∀ (frames : List (List ℝ × List ℝ)) (k : ℕ),
      (∀ fr ∈ frames, (encodeFrame f32 fr).length = cnt) → k < frames.length →
      ((frames.flatMap (encodeFrame f32)).drop (k * cnt)).take cnt =
        encodeFrame f32 (frames.getD k ([], [])) := by
  intro frames
  induction frames with
  | nil =>
    intro k h hk
    simp at hk
  | cons fr frames ih =>
    intro k h hk
    cases k with
    | zero =>
      simp only [Nat.zero_mul, List.drop_zero, List.flatMap_cons]
      rw [List.take_left' (h fr (List.mem_cons_self fr frames))]
      rfl
    | succ k =>
      have hlen : (encodeFrame f32 fr).length = cnt := h fr (List.mem_cons_self fr frames)
      have harith : (k + 1) * cnt = cnt + k * cnt := by ring
      simp only [List.flatMap_cons, harith]
      rw [← List.drop_drop, List.drop_left' hlen]
      have hk' : k < frames.length := by
        simpa using Nat.lt_of_succ_lt_succ (by simpa using hk)
      rw [ih k (fun b hb => h b (List.mem_cons_of_mem fr hb)) hk']
      rfl

lemma encodeBinary_layout (f32 : ℝ → List ℕ) (grid : List ℝ)
    (frames : List (List ℝ × List ℝ))
    (h4 : ∀ v, (f32 v).length = 4)
    (hfr : ∀ fr ∈ frames, fr.1.length = grid.length ∧ fr.2.length = grid.length)
    (hfc : frames.length < 2 ^ 32) (hM : grid.length < 2 ^ 32) :
    layoutOK (encodeBinary f32 grid frames) f32 grid frames := by
  have hgl : (grid.flatMap f32).length = grid.length * 4 :=
    flatMap_length_const f32 4 grid (fun a _ => h4 a)
  have henc : ∀ fr ∈ frames, (encodeFrame f32 fr).length = 8 * grid.length := by
    intro fr hmem
    have h1 : (fr.1.flatMap f32).length = fr.1.length * 4 :=
      flatMap_length_const f32 4 fr.1 (fun a _ => h4 a)
    have h2 : (fr.2.flatMap f32).length = fr.2.length * 4 :=
      flatMap_length_const f32 4 fr.2 (fun a _ => h4 a)
    simp only [encodeFrame, List.length_append, h1, h2, (hfr fr hmem).1, (hfr fr hmem).2]
    ring
  have hD : (frames.flatMap (encodeFrame f32)).length = frames.length * (8 * grid.length) :=
    flatMap_length_const (encodeFrame f32) (8 * grid.length) frames henc
  have hout : encodeBinary f32 grid frames =
      u32le frames.length ++ (u32le grid.length ++
        (grid.flatMap f32 ++ frames.flatMap (encodeFrame f32))) := by
    simp [encodeBinary, List.append_assoc]
  have hdrop8 : (encodeBinary f32 grid frames).drop 8 =
      grid.flatMap f32 ++ frames.flatMap (encodeFrame f32) := by
    rw [hout]
    have h8 : (8 : ℕ) = (u32le frames.length).length + 4 := by
      rw [u32le_length]
    rw [h8, List.drop_append]
    have h4' : (4 : ℕ) = (u32le grid.length).length + 0 := by
      rw [u32le_length]
    rw [h4', List.drop_append]
    simp
  have hdropFrames : ∀ j : ℕ, (encodeBinary f32 grid frames).drop (8 + 4 * grid.length + j) =
      (frames.flatMap (encodeFrame f32)).drop j := by
    intro j
    have harith : 8 + 4 * grid.length + j = 8 + (4 * grid.length + j) := by ring
    rw [harith, ← List.drop_drop, hdrop8]
    have hgl' : 4 * grid.length + j = (grid.flatMap f32).length + j := by
      rw [hgl]; ring
    rw [hgl', List.drop_append]
  refine ⟨?_, ?_, ?_, ?_, ?_, ?_, ?_⟩
  · rw [hout]
    simp only [List.length_append, u32le_length, hgl, hD]
    ring
  · rw [hout, List.take_left' (u32le_length frames.length)]
  · rw [hout, List.take_left' (u32le_length frames.length), decode_u32le frames.length hfc]
  · rw [hout, List.drop_left' (u32le_length frames.length),
      List.take_left' (u32le_length grid.length)]
  · rw [hout, List.drop_left' (u32le_length frames.length),
      List.take_left' (u32le_length grid.length), decode_u32le grid.length hM]
  · rw [hdrop8]
    rw [List.take_left' (by rw [hgl]; ring)]
  · intro k hk
    have hseg : ((frames.flatMap (encodeFrame f32)).drop (k * (8 * grid.length))).take
        (8 * grid.length) = encodeFrame f32 (frames.getD k ([], [])) :=
      flatMap_frame_segment f32 (8 * grid.length) frames k henc hk
    have hmemK : frames.getD k ([], []) ∈ frames := by
      rw [List.getD_eq_getElem _ _ hk]
      exact List.getElem_mem hk
    have hre : ((frames.getD k ([], [])).1.flatMap f32).length = 4 * grid.length := by
      rw [flatMap_length_const f32 4 _ (fun a _ => h4 a), (hfr _ hmemK).1]
      ring
    constructor
    · rw [hdropFrames (k * (8 * grid.length))]
      have htt : ((frames.flatMap (encodeFrame f32)).drop (k * (8 * grid.length))).take
          (4 * grid.length) =
          (((frames.flatMap (encodeFrame f32)).drop (k * (8 * grid.length))).take
            (8 * grid.length)).take (4 * grid.length) := by
        rw [List.take_take]
        have : min (4 * grid.length) (8 * grid.length) = 4 * grid.length := by omega
        rw [this]
      rw [htt, hseg, encodeFrame, List.take_left' hre]
    · have harith : 8 + 4 * grid.length + k * (8 * grid.length) + 4 * grid.length =
          8 + 4 * grid.length + (k * (8 * grid.length) + 4 * grid.length) := by ring
      rw [harith, hdropFrames (k * (8 * grid.length) + 4 * grid.length), ← List.drop_drop]
      have hdt : (((frames.flatMap (encodeFrame f32)).drop (k * (8 * grid.length))).drop
          (4 * grid.length)).take (4 * grid.length) =
          ((((frames.flatMap (encodeFrame f32)).drop (k * (8 * grid.length))).take
            (8 * grid.length)).drop (4 * grid.length)) := by
        rw [List.drop_take]
        have : 8 * grid.length - 4 * grid.length = 4 * grid.length := by omega
        rw [this]
      rw [hdt, hseg, encodeFrame, List.drop_left' hre]

/-- C1: every run of `quantum_tunneling_simulation_binary` (interior grid of
`M = N - 1` points, `N = m + 2`) produces a byte string in the fixed
little-endian layout: `uint32` frame count at offset 0, `uint32` grid size
`M` at offset 4, the `M` grid floats at offset 8, then per frame `M` float32
real parts followed by `M` float32 imaginary parts, with total length
`8 + 4M + frame_count·8M` and no padding. -/
theorem C1_binary_frame_encoding (f32 : ℝ → List ℕ) (xmin xmax : ℝ) {m : ℕ}
    (hbar : ℝ) (E : Fin (m + 1) → ℝ) (psiN : Fin (m + 1) → Fin (m + 1) → ℂ)
    (c : Fin (m + 1) → ℂ) (dt : ℝ) (numTimeSteps maxFrames : ℕ)
    (h4 : ∀ v, (f32 v).length = 4)
    (hfc : (emittedSteps numTimeSteps maxFrames).length < 2 ^ 32)
    (hM : m + 1 < 2 ^ 32) :
    (innerGridList xmin xmax (m + 2)).length = (m + 2) - 1 ∧
    layoutOK (binaryPayload f32 xmin xmax hbar E psiN c dt numTimeSteps maxFrames) f32
      (innerGridList xmin xmax (m + 2)) (simFrames hbar E psiN c dt numTimeSteps maxFrames) := by
  have hgrid : (innerGridList xmin xmax (m + 2)).length = m + 1 := by
    simp [innerGridList]
  refine ⟨by rw [hgrid]; omega, ?_⟩
  apply encodeBinary_layout
  · exact h4
  · intro fr hmem
    simp only [simFrames, List.mem_map] at hmem
    obtain ⟨step, _, rfl⟩ := hmem
    simp [hgrid]
  · have hlen : (simFrames hbar E psiN c dt numTimeSteps maxFrames).length =
        (emittedSteps numTimeSteps maxFrames).length := by
      unfold simFrames
      exact List.length_map _ _
    rw [hlen]
    exact hfc
  · rw [hgrid]
    exact hM

/-- Witness for C1 at a concrete run: `N = 2` (one interior point), one time
step, one frame, and the constant 4-byte float32 encoder. -/
theorem C1_binary_frame_encoding_witness :
    (innerGridList 0 1 2).length = 2 - 1 ∧
    layoutOK (binaryPayload (fun _ => [0, 0, 0, 0]) 0 1 1 (fun _ : Fin 1 => (0 : ℝ))
        (fun _ _ => (1 : ℂ)) (fun _ => (0 : ℂ)) 1 1 1) (fun _ => [0, 0, 0, 0])
      (innerGridList 0 1 2)
      (simFrames 1 (fun _ : Fin 1 => (0 : ℝ)) (fun _ _ => (1 : ℂ)) (fun _ => (0 : ℂ)) 1 1 1) :=
  C1_binary_frame_encoding (fun _ => [0, 0, 0, 0]) 0 1 1 (fun _ : Fin 1 => (0 : ℝ))
    (fun _ _ => (1 : ℂ)) (fun _ => (0 : ℂ)) 1 1 1 (fun _ => rfl) (by decide) (by norm_num)

/-- Counterexample to C7 as stated: the claimed "equals V0 if and only if
strictly inside" is universally quantified over all parameters, but for
`momentum = 0` the barrier height `V0` is 0, so a point strictly outside the
barrier (here `x = 1` with barrier `(0, 1/2)`) also has potential equal to
`V0`, refuting the "only if" direction. -/
theorem C7_counterexample :
    ¬ (potentialAt 0 1 0 (1 / 2) 1 = barrierHeight 0 1 ↔
        ((0 : ℝ) < 1 ∧ (1 : ℝ) < 1 / 2)) := by
  intro h
  have h1 : potentialAt 0 1 0 (1 / 2) 1 = 0 := by
    unfold potentialAt
    rw [if_neg (by norm_num)]
  have h2 : barrierHeight 0 1 = 0 := by
    unfold barrierHeight
    norm_num
  have h3 := h.mp (by rw [h1, h2])
  have h4 : (1 : ℝ) < 1 / 2 := h3.2
  norm_num at h4

/-- C7 (amended): the potential is `V0` at points strictly inside
`(barrier_start, barrier_end)` and `0` at all other points; the biconditional
"equals V0 iff strictly inside" holds whenever `V0 ≠ 0`; and at the claim's
concrete inputs (`barrier (0, 1/2)`, `momentum 40`, `mass 1`) the boundary
points `x = 0` and `x = 1/2` get 0 while `x = 1/4` gets `V0 = 800`. -/
theorem C7_barrier_edge_policy (momentum mass barrierStart barrierEnd x : ℝ) :
    (barrierStart < x ∧ x < barrierEnd →
      potentialAt momentum mass barrierStart barrierEnd x = barrierHeight momentum mass) ∧
    (¬ (barrierStart < x ∧ x < barrierEnd) →
      potentialAt momentum mass barrierStart barrierEnd x = 0) ∧
    (barrierHeight momentum mass ≠ 0 →
      (potentialAt momentum mass barrierStart barrierEnd x = barrierHeight momentum mass ↔
        barrierStart < x ∧ x < barrierEnd)) ∧
    potentialAt 40 1 0 (1 / 2) 0 = 0 ∧
    potentialAt 40 1 0 (1 / 2) (1 / 2) = 0 ∧
    potentialAt 40 1 0 (1 / 2) (1 / 4) = barrierHeight 40 1 ∧
    barrierHeight 40 1 = 800 := by
  refine ⟨fun h => ?_, fun h => ?_, fun hne => ?_, ?_, ?_, ?_, ?_⟩
  · unfold potentialAt
    rw [if_pos h]
  · unfold potentialAt
    rw [if_neg h]
  · constructor
    · intro hval
      by_contra hx
      unfold potentialAt at hval
      rw [if_neg hx] at hval
      exact hne hval.symm
    · intro hx
      unfold potentialAt
      rw [if_pos hx]
  · unfold potentialAt
    rw [if_neg (by norm_num)]
  · unfold potentialAt
    rw [if_neg (by norm_num)]
  · unfold potentialAt
    rw [if_pos (by norm_num)]
  · unfold barrierHeight
    norm_num

/-- Witness for C7 (amended), exercising the `V0 ≠ 0` biconditional at the
claim's concrete barrier and the interior point `x = 1/4`. -/
theorem C7_barrier_edge_policy_witness :
    potentialAt 40 1 0 (1 / 2) (1 / 4) = barrierHeight 40 1 ↔
      ((0 : ℝ) < 1 / 4 ∧ (1 / 4 : ℝ) < 1 / 2) :=
  (C7_barrier_edge_policy 40 1 0 (1 / 2) (1 / 4)).2.2.1 (by norm_num [barrierHeight])

/-- Counterexample to C8 as stated: the code performs no σ validation at all
(calculator.py lines 87-93 construct and normalize `Psi0` unconditionally and
no `InvalidParameterError` exists anywhere in the repository). At the concrete
call `σ = -1 ≤ 0`, grid = the single point `x = x0 = 0`, the construction
returns the perfectly normalized state `Ψ0 = 1` instead of failing. -/
theorem C8_counterexample :
    ((-1 : ℝ) ≤ 0) ∧
    psi0 (-1) 0 40 1 (fun _ : Fin 1 => 0) = (fun _ => 1) ∧
    totalProb 1 (psi0 (-1) 0 40 1 (fun _ : Fin 1 => 0)) = 1 := by
  have hraw : psi0raw (-1) 0 40 0 = 1 := by
    unfold psi0raw
    norm_num
  have hA : psi0A (-1) 0 40 1 (fun _ : Fin 1 => 0) = 1 := by
    unfold psi0A
    rw [Fin.sum_univ_one, hraw]
    simp
  have hfun : psi0 (-1) 0 40 1 (fun _ : Fin 1 => 0) = (fun _ => 1) := by
    funext i
    unfold psi0
    rw [hraw, hA, Real.sqrt_one]
    norm_num
  refine ⟨by norm_num, hfun, ?_⟩
  rw [hfun]
  unfold totalProb
  rw [Fin.sum_univ_one]
  simp

/-- C8 (amended): the initial-state construction is total — there is no σ
check and no typed error path. A negative σ enters only through `σ²`, so for
every σ the construction at `-σ` succeeds and returns exactly the state it
returns at `σ`; in particular every call with `σ < 0` produces the same
normalized wave packet as the valid call with width `|σ|`. -/
theorem C8_no_sigma_validation {M : ℕ} (sigma x0 momentum dx : ℝ) (x : Fin M → ℝ) :
    psi0 (-sigma) x0 momentum dx x = psi0 sigma x0 momentum dx x := by
  have hraw : ∀ y, psi0raw (-sigma) x0 momentum y = psi0raw sigma x0 momentum y := by
    intro y
    unfold psi0raw
    rw [neg_sq]
  funext i
  unfold psi0 psi0A
  simp only [hraw]

/-- Counterexample to C9 as stated: in the JSON variant the returned potential
array is computed on the FULL grid (calculator.py line 212, `np.zeros_like(x)`)
and returned whole (line 267), so for `N = 2` it has 3 entries, not
`N - 1 = 1`. -/
theorem C9_counterexample :
    (potentialFull 40 1 0 (1 / 2) (-(13 / 2)) (13 / 2) 2).length = 3 ∧ (3 : ℕ) ≠ 2 - 1 := by
  constructor
  · unfold potentialFull
    rw [List.length_ofFn]
  · decide

/-- C9 (amended): the binary variant's potential array is aligned with the
interior grid and has exactly `N - 1` entries; the JSON variant instead
returns the full-grid potential with `N + 1` entries, whose interior slice
(the one used in its Hamiltonian, `V[1:-1]`) agrees pointwise with the
interior-aligned array. -/
theorem C9_potential_grid_alignment (momentum mass barrierStart barrierEnd xmin xmax : ℝ)
    (N : ℕ) :
    (potentialInner momentum mass barrierStart barrierEnd xmin xmax N).length = N - 1 ∧
    (potentialFull momentum mass barrierStart barrierEnd xmin xmax N).length = N + 1 ∧
    ∀ i, i < N - 1 →
      (potentialFull momentum mass barrierStart barrierEnd xmin xmax N).getD (i + 1) 0 =
        (potentialInner momentum mass barrierStart barrierEnd xmin xmax N).getD i 0 := by
  refine ⟨by unfold potentialInner; rw [List.length_ofFn], by
    unfold potentialFull; rw [List.length_ofFn], ?_⟩
  intro i hi
  have h1 : i + 1 < (potentialFull momentum mass barrierStart barrierEnd xmin xmax N).length := by
    unfold potentialFull
    rw [List.length_ofFn]
    omega
  have h2 : i < (potentialInner momentum mass barrierStart barrierEnd xmin xmax N).length := by
    unfold potentialInner
    rw [List.length_ofFn]
    omega
  rw [List.getD_eq_getElem _ _ h1, List.getD_eq_getElem _ _ h2]
  unfold potentialFull potentialInner
  simp only [List.getElem_ofFn]
  rfl

/-- Witness for C9 (amended): at `N = 3`, entry 1 of the full-grid array is
entry 0 of the interior-aligned array. -/
theorem C9_potential_grid_alignment_witness :
    (potentialFull 40 1 0 (1 / 2) (-(13 / 2)) (13 / 2) 3).getD 1 0 =
      (potentialInner 40 1 0 (1 / 2) (-(13 / 2)) (13 / 2) 3).getD 0 0 :=
  (C9_potential_grid_alignment 40 1 0 (1 / 2) (-(13 / 2)) (13 / 2) 3).2.2 0 (by norm_num)

/-- Python `int(...)` applied to a float: truncation toward zero. -/
noncomputable def pyInt (r : ℝ) : ℤ :=
  if 0 ≤ r then ⌊r⌋ else ⌈r⌉

/-- Resolution of the optional step count (calculator.py lines 247-248):
`num_time_steps` when supplied, else `int(t_max / dt)`. -/
noncomputable def resolveSteps (numTimeSteps : Option ℤ) (tMax dt : ℝ) : ℤ :=
  numTimeSteps.getD (pyInt (tMax / dt))

/-- JSON-variant time evolution (calculator.py lines 250-262): one entry per
step of `range(num_time_steps)` — no `max_frames` bound exists in this
variant — carrying `time = step * dt` and the probability amplitudes
`np.abs(Psi)`. -/
noncomputable def timeEvolution {m : ℕ} (hbar : ℝ) (E : Fin (m + 1) → ℝ)
    (psiN : Fin (m + 1) → Fin (m + 1) → ℂ) (c : Fin (m + 1) → ℂ) (dt : ℝ)
    (numTimeSteps : ℤ) : List (ℝ × (Fin (m + 1) → ℝ)) :=
  (List.range numTimeSteps.toNat).map (fun step : ℕ =>
    ((step : ℝ) * dt, fun j => Complex.abs (psiAt hbar E psiN c ((step : ℝ) * dt) j)))

/-- C10: for every call to the JSON variant with resolved step count `n`
(`num_time_steps` when supplied, else `int(t_max / dt)`), the returned
`time_evolution` list has exactly `n` entries and entry `k` is tagged with
time `k · dt`; no downsampling is applied. -/
theorem C10_json_time_evolution {m : ℕ} (hbar : ℝ) (E : Fin (m + 1) → ℝ)
    (psiN : Fin (m + 1) → Fin (m + 1) → ℂ) (c : Fin (m + 1) → ℂ) (dt tMax : ℝ)
    (numTimeSteps : Option ℤ)
    (hn : 0 ≤ resolveSteps numTimeSteps tMax dt) :
    ((timeEvolution hbar E psiN c dt (resolveSteps numTimeSteps tMax dt)).length : ℤ) =
      resolveSteps numTimeSteps tMax dt ∧
    ∀ k, k < (resolveSteps numTimeSteps tMax dt).toNat →
      ((timeEvolution hbar E psiN c dt (resolveSteps numTimeSteps tMax dt)).getD k
          (0, fun _ => 0)).1 = (k : ℝ) * dt := by
  have hlen : (timeEvolution hbar E psiN c dt (resolveSteps numTimeSteps tMax dt)).length =
      (resolveSteps numTimeSteps tMax dt).toNat := by
    unfold timeEvolution
    rw [List.length_map, List.length_range]
  constructor
  · rw [hlen]
    exact Int.toNat_of_nonneg hn
  · intro k hk
    have hk' : k < (timeEvolution hbar E psiN c dt (resolveSteps numTimeSteps tMax dt)).length := by
      rw [hlen]
      exact hk
    rw [List.getD_eq_getElem _ _ hk']
    unfold timeEvolution
    simp

/-- Witness for C10 at the concrete call `num_time_steps = some 3`, `dt = 1`:
exactly 3 entries are returned. -/
theorem C10_json_time_evolution_witness :
    ((timeEvolution 1 (fun _ : Fin 1 => (0 : ℝ)) (fun _ _ => (1 : ℂ)) (fun _ => (0 : ℂ)) 1
        (resolveSteps (some 3) 0 1)).length : ℤ) = resolveSteps (some 3) 0 1 :=
  (C10_json_time_evolution 1 (fun _ : Fin 1 => (0 : ℝ)) (fun _ _ => (1 : ℂ))
    (fun _ => (0 : ℂ)) 1 0 (some 3) (by norm_num [resolveSteps])).1

lemma normSq_div_sqrt (z : ℂ) (a : ℝ) (ha : 0 ≤ a) :
    Complex.normSq (z / ((Real.sqrt a : ℝ) : ℂ)) = Complex.normSq z / a := by
  rw [Complex.normSq_div, Complex.normSq_ofReal, Real.mul_self_sqrt ha]

/-- A possible eigendecomposition output whose rows do not all share the same
norm: row 0 is `(1, 0)` (unit norm), row 1 is `(0, 2)` (norm 2). -/
noncomputable def psiC : Fin 2 → Fin 2 → ℂ :=
  fun i j => if i = 0 then (if j = 0 then 1 else 0) else (if j = 1 then 2 else 0)

/-- Counterexample to C6 as stated: the renormalization of calculator.py lines
106-107 divides ALL rows by the single factor `sqrt(sum(|psi[0]|^2 dx))`
computed from row 0 only. For the primitive output `psiC` (allowed by "any
output the underlying primitive may return") with `dx = 1`, row 1 still has
`sum |eigenvector_1|^2 dx = 4 ≠ 1` after renormalization. -/
theorem C6_counterexample :
    totalProb 1 (eigNormed 1 psiC 1) = 4 ∧ (4 : ℝ) ≠ 1 := by
  have hA : eigNormA 1 psiC = 1 := by
    unfold eigNormA psiC
    rw [Fin.sum_univ_two]
    simp
  constructor
  · unfold totalProb
    rw [Fin.sum_univ_two]
    unfold eigNormed
    rw [hA, Real.sqrt_one]
    unfold psiC
    norm_num [Complex.normSq_apply]
  · norm_num

/-- C6 (amended): the renormalization uses the single factor derived from
eigenvector 0, so eigenvector `i` ends up with `sum |eigenvector_i|^2 dx = 1`
exactly when its pre-normalization squared norm equals that of eigenvector 0
— in particular for every `i` under the actual primitive's uniform unit-norm
convention, but not for arbitrary primitive outputs. -/
theorem C6_eigvector_renormalization {m : ℕ} (dx : ℝ)
    (psi : Fin (m + 1) → Fin (m + 1) → ℂ) (i : Fin (m + 1)) (hdx : 0 < dx)
    (hpos : 0 < ∑ j, Complex.normSq (psi 0 j))
    (heq : ∑ j, Complex.normSq (psi i j) = ∑ j, Complex.normSq (psi 0 j)) :
    totalProb dx (eigNormed dx psi i) = 1 := by
  have hA : eigNormA dx psi = (∑ j, Complex.normSq (psi 0 j)) * dx := by
    unfold eigNormA
    rw [← Finset.sum_mul]
  have hApos : 0 < eigNormA dx psi := by
    rw [hA]
    exact mul_pos hpos hdx
  have hsum : totalProb dx (eigNormed dx psi i) =
      (∑ j, Complex.normSq (psi i j)) * dx / eigNormA dx psi := by
    unfold totalProb
    simp only [eigNormed, normSq_div_sqrt _ _ hApos.le, div_mul_eq_mul_div]
    rw [← Finset.sum_div, ← Finset.sum_mul]
  rw [hsum, heq, hA]
  exact div_self (ne_of_gt (mul_pos hpos hdx))

/-- Witness for C6 (amended) at the uniform primitive output on one grid
point: the renormalized eigenvector has total probability 1. -/
theorem C6_eigvector_renormalization_witness :
    totalProb 1 (eigNormed 1 (fun _ _ : Fin 1 => (1 : ℂ)) 0) = 1 :=
  C6_eigvector_renormalization 1 (fun _ _ => 1) 0 (by norm_num)
    (by rw [Fin.sum_univ_one]; simp) rfl

lemma normSq_phase (E t hbar : ℝ) :
    Complex.normSq (Complex.exp (-Complex.I * (E : ℂ) * (t : ℂ) / (hbar : ℂ))) = 1 := by
  have he : -Complex.I * (E : ℂ) * (t : ℂ) / (hbar : ℂ) =
      ((-(E * t / hbar) : ℝ) : ℂ) * Complex.I := by
    push_cast
    ring
  rw [he, ← Complex.sq_abs, Complex.abs_exp_ofReal_mul_I]
  norm_num

lemma phase_at_zero (E hbar : ℝ) :
    Complex.exp (-Complex.I * (E : ℂ) * ((0 : ℝ) : ℂ) / (hbar : ℂ)) = 1 := by
  norm_num

lemma sum_normSq_row_zero {m : ℕ} (psi : Fin (m + 1) → Fin (m + 1) → ℂ)
    (horth : ∀ i j, ∑ k, (starRingEnd ℂ) (psi i k) * psi j k =
      if i = j then 1 else 0) :
    ∑ j, Complex.normSq (psi 0 j) = 1 := by
  have h := horth 0 0
  rw [if_pos rfl] at h
  have h2 : ∑ j, ((Complex.normSq (psi 0 j) : ℝ) : ℂ) = 1 := by
    calc ∑ j, ((Complex.normSq (psi 0 j) : ℝ) : ℂ) =
        ∑ j, (starRingEnd ℂ) (psi 0 j) * psi 0 j :=
          Finset.sum_congr rfl fun j _ => Complex.normSq_eq_conj_mul_self
      _ = 1 := h
  have h3 : ((∑ j, Complex.normSq (psi 0 j) : ℝ) : ℂ) = ((1 : ℝ) : ℂ) := by
    push_cast
    rw [h2]
  exact Complex.ofReal_inj.mp h3

lemma eigNormA_eq_dx {m : ℕ} (dx : ℝ) (psi : Fin (m + 1) → Fin (m + 1) → ℂ)
    (horth : ∀ i j, ∑ k, (starRingEnd ℂ) (psi i k) * psi j k =
      if i = j then 1 else 0) :
    eigNormA dx psi = dx := by
  unfold eigNormA
  rw [← Finset.sum_mul, sum_normSq_row_zero psi horth, one_mul]

lemma eigNormed_conj_mul {m : ℕ} (dx : ℝ) (psi : Fin (m + 1) → Fin (m + 1) → ℂ)
    (hdx : 0 < dx) (hA : eigNormA dx psi = dx) (i j k l : Fin (m + 1)) :
    (starRingEnd ℂ) (eigNormed dx psi i k) * eigNormed dx psi j l =
      (starRingEnd ℂ) (psi i k) * psi j l / (dx : ℂ) := by
  unfold eigNormed
  rw [hA, map_div₀, Complex.conj_ofReal, div_mul_div_comm, ← Complex.ofReal_mul,
    Real.mul_self_sqrt hdx.le]

lemma eigNormed_row_orth {m : ℕ} (dx : ℝ) (psi : Fin (m + 1) → Fin (m + 1) → ℂ)
    (hdx : 0 < dx)
    (horth : ∀ i j, ∑ k, (starRingEnd ℂ) (psi i k) * psi j k =
      if i = j then 1 else 0) :
    ∀ i j, (dx : ℂ) * ∑ k, (starRingEnd ℂ) (eigNormed dx psi i k) * eigNormed dx psi j k =
      if i = j then 1 else 0 := by
  intro i j
  have hA := eigNormA_eq_dx dx psi horth
  have hne : (dx : ℂ) ≠ 0 := Complex.ofReal_ne_zero.mpr hdx.ne'
  calc (dx : ℂ) * ∑ k, (starRingEnd ℂ) (eigNormed dx psi i k) * eigNormed dx psi j k
      = (dx : ℂ) * ∑ k, (starRingEnd ℂ) (psi i k) * psi j k / (dx : ℂ) := by
        rw [Finset.sum_congr rfl fun k _ => eigNormed_conj_mul dx psi hdx hA i j k k]
    _ = (dx : ℂ) * ((∑ k, (starRingEnd ℂ) (psi i k) * psi j k) / (dx : ℂ)) := by
        rw [← Finset.sum_div]
    _ = ∑ k, (starRingEnd ℂ) (psi i k) * psi j k := mul_div_cancel₀ _ hne
    _ = if i = j then 1 else 0 := horth i j

lemma eigNormed_completeness {m : ℕ} (dx : ℝ) (psi : Fin (m + 1) → Fin (m + 1) → ℂ)
    (hdx : 0 < dx)
    (horth : ∀ i j, ∑ k, (starRingEnd ℂ) (psi i k) * psi j k =
      if i = j then 1 else 0) :
    ∀ k l, (dx : ℂ) * ∑ i, (starRingEnd ℂ) (eigNormed dx psi i k) * eigNormed dx psi i l =
      if k = l then 1 else 0 := by
  have hA := eigNormA_eq_dx dx psi horth
  have hne : (dx : ℂ) ≠ 0 := Complex.ofReal_ne_zero.mpr hdx.ne'
  set U : Matrix (Fin (m + 1)) (Fin (m + 1)) ℂ := Matrix.of (fun i k => psi i k) with hU
  have h1 : U * U.conjTranspose = 1 := by
    ext i j
    rw [Matrix.mul_apply, Matrix.one_apply]
    calc ∑ k, U i k * U.conjTranspose k j
        = ∑ k, (starRingEnd ℂ) (psi j k) * psi i k := by
          refine Finset.sum_congr rfl fun k _ => ?_
          rw [Matrix.conjTranspose_apply]
          simp only [hU, Matrix.of_apply]
          rw [Complex.star_def]
          ring
      _ = if j = i then 1 else 0 := horth j i
      _ = if i = j then 1 else 0 := by simp [eq_comm]
  have h2 : U.conjTranspose * U = 1 := Matrix.mul_eq_one_comm.mp h1
  have h3 : ∀ k l, ∑ i, (starRingEnd ℂ) (psi i k) * psi i l = if k = l then 1 else 0 := by
    intro k l
    calc ∑ i, (starRingEnd ℂ) (psi i k) * psi i l
        = ∑ i, U.conjTranspose k i * U i l := by
          refine Finset.sum_congr rfl fun i _ => ?_
          rw [Matrix.conjTranspose_apply]
          simp only [hU, Matrix.of_apply]
          rw [Complex.star_def]
      _ = (U.conjTranspose * U) k l := (Matrix.mul_apply).symm
      _ = (1 : Matrix (Fin (m + 1)) (Fin (m + 1)) ℂ) k l := by rw [h2]
      _ = if k = l then 1 else 0 := Matrix.one_apply
  intro k l
  calc (dx : ℂ) * ∑ i, (starRingEnd ℂ) (eigNormed dx psi i k) * eigNormed dx psi i l
      = (dx : ℂ) * ∑ i, (starRingEnd ℂ) (psi i k) * psi i l / (dx : ℂ) := by
        rw [Finset.sum_congr rfl fun i _ => eigNormed_conj_mul dx psi hdx hA i i k l]
    _ = (dx : ℂ) * ((∑ i, (starRingEnd ℂ) (psi i k) * psi i l) / (dx : ℂ)) := by
        rw [← Finset.sum_div]
    _ = ∑ i, (starRingEnd ℂ) (psi i k) * psi i l := mul_div_cancel₀ _ hne
    _ = if k = l then 1 else 0 := h3 k l

lemma norm_of_expansion {m : ℕ} (dx : ℝ) (v : Fin (m + 1) → Fin (m + 1) → ℂ)
    (a : Fin (m + 1) → ℂ)
    (hv : ∀ i j, (dx : ℂ) * ∑ k, (starRingEnd ℂ) (v i k) * v j k =
      if i = j then 1 else 0) :
    ((totalProb dx (fun y => ∑ i, a i * v i y) : ℝ) : ℂ) =
      ∑ i, ((Complex.normSq (a i) : ℝ) : ℂ) := by
  unfold totalProb
  push_cast
  calc ∑ y, ((Complex.normSq (∑ i, a i * v i y) : ℝ) : ℂ) * (dx : ℂ)
      = ∑ y, ((starRingEnd ℂ) (∑ i, a i * v i y) * ∑ j, a j * v j y) * (dx : ℂ) := by
        refine Finset.sum_congr rfl fun y _ => ?_
        rw [Complex.normSq_eq_conj_mul_self]
    _ = ∑ y, ∑ i, ∑ j,
          ((starRingEnd ℂ) (a i) * (starRingEnd ℂ) (v i y)) * (a j * v j y) * (dx : ℂ) := by
        refine Finset.sum_congr rfl fun y _ => ?_
        rw [map_sum, Finset.sum_mul_sum, Finset.sum_mul]
        refine Finset.sum_congr rfl fun i _ => ?_
        rw [Finset.sum_mul]
        refine Finset.sum_congr rfl fun j _ => ?_
        rw [map_mul]
    _ = ∑ i, ∑ j, ((starRingEnd ℂ) (a i) * a j) *
          ((dx : ℂ) * ∑ y, (starRingEnd ℂ) (v i y) * v j y) := by
        rw [Finset.sum_comm]
        refine Finset.sum_congr rfl fun i _ => ?_
        rw [Finset.sum_comm]
        refine Finset.sum_congr rfl fun j _ => ?_
        rw [Finset.mul_sum, Finset.mul_sum]
        refine Finset.sum_congr rfl fun y _ => ?_
        ring
    _ = ∑ i, ∑ j, ((starRingEnd ℂ) (a i) * a j) * (if i = j then 1 else 0) := by
        refine Finset.sum_congr rfl fun i _ => Finset.sum_congr rfl fun j _ => ?_
        rw [hv i j]
    _ = ∑ i, (starRingEnd ℂ) (a i) * a i := by
        refine Finset.sum_congr rfl fun i _ => ?_
        simp
    _ = ∑ i, ((Complex.normSq (a i) : ℝ) : ℂ) :=
        Finset.sum_congr rfl fun i _ => Complex.normSq_eq_conj_mul_self.symm

lemma reconstruct_at_coeff {m : ℕ} (dx : ℝ) (v : Fin (m + 1) → Fin (m + 1) → ℂ)
    (hcomp : ∀ k l, (dx : ℂ) * ∑ i, (starRingEnd ℂ) (v i k) * v i l =
      if k = l then 1 else 0)
    (Psi0 : Fin (m + 1) → ℂ) :
    (fun y => ∑ i, coeff dx v Psi0 i * v i y) = Psi0 := by
  funext y
  unfold coeff
  calc ∑ i, (∑ j, (starRingEnd ℂ) (v i j) * Psi0 j * (dx : ℂ)) * v i y
      = ∑ i, ∑ j, (starRingEnd ℂ) (v i j) * Psi0 j * (dx : ℂ) * v i y := by
        refine Finset.sum_congr rfl fun i _ => ?_
        rw [Finset.sum_mul]
    _ = ∑ j, ∑ i, (starRingEnd ℂ) (v i j) * Psi0 j * (dx : ℂ) * v i y := Finset.sum_comm
    _ = ∑ j, Psi0 j * ((dx : ℂ) * ∑ i, (starRingEnd ℂ) (v i j) * v i y) := by
        refine Finset.sum_congr rfl fun j _ => ?_
        rw [Finset.mul_sum, Finset.mul_sum]
        refine Finset.sum_congr rfl fun i _ => ?_
        ring
    _ = ∑ j, Psi0 j * (if j = y then 1 else 0) := by
        refine Finset.sum_congr rfl fun j _ => ?_
        rw [hcomp j y]
    _ = Psi0 y := by
        simp

lemma psi0raw_normSq_pos (sigma x0 momentum y : ℝ) :
    0 < Complex.normSq (psi0raw sigma x0 momentum y) := by
  unfold psi0raw
  rw [Complex.normSq_mul, Complex.normSq_ofReal]
  have h2 : Complex.normSq (Complex.exp (Complex.I * (momentum : ℂ) * ((y - x0 : ℝ) : ℂ))) = 1 := by
    have he : Complex.I * (momentum : ℂ) * ((y - x0 : ℝ) : ℂ) =
        ((momentum * (y - x0) : ℝ) : ℂ) * Complex.I := by
      push_cast
      ring
    rw [he, ← Complex.sq_abs, Complex.abs_exp_ofReal_mul_I]
    norm_num
  rw [h2, mul_one]
  exact mul_pos (Real.exp_pos _) (Real.exp_pos _)

lemma psi0A_pos {m : ℕ} (sigma x0 momentum dx : ℝ) (x : Fin (m + 1) → ℝ)
    (hdx : 0 < dx) : 0 < psi0A sigma x0 momentum dx x := by
  unfold psi0A
  apply Finset.sum_pos
  · intro i _
    exact mul_pos (psi0raw_normSq_pos _ _ _ _) hdx
  · exact Finset.univ_nonempty

lemma psi0_totalProb {m : ℕ} (sigma x0 momentum dx : ℝ) (x : Fin (m + 1) → ℝ)
    (hdx : 0 < dx) : totalProb dx (psi0 sigma x0 momentum dx x) = 1 := by
  have hApos := psi0A_pos sigma x0 momentum dx x hdx
  unfold totalProb psi0
  simp only [normSq_div_sqrt _ _ hApos.le, div_mul_eq_mul_div]
  rw [← Finset.sum_div]
  change psi0A sigma x0 momentum dx x / psi0A sigma x0 momentum dx x = 1
  exact div_self hApos.ne'

/-- C4: projecting the normalized initial wavefunction onto the renormalized
eigenbasis (calculator.py lines 105-112) and reconstructing at `t = 0` (lines
128-132) recovers the initial state exactly, for every valid parameter set
(`σ > 0`, grid of `M = N - 1 ≥ 1` interior points, `dx > 0`), under the
eigendecomposition primitive's orthonormality contract. -/
theorem C4_reconstruction_at_t0 {m : ℕ} (sigma x0 momentum dx hbar : ℝ)
    (x E : Fin (m + 1) → ℝ) (psi : Fin (m + 1) → Fin (m + 1) → ℂ)
    (hsig : 0 < sigma) (hdx : 0 < dx)
    (horth : ∀ i j, ∑ k, (starRingEnd ℂ) (psi i k) * psi j k =
      if i = j then 1 else 0) :
    psiAt hbar E (eigNormed dx psi)
        (coeff dx (eigNormed dx psi) (psi0 sigma x0 momentum dx x)) 0 =
      psi0 sigma x0 momentum dx x := by
  have hcomp := eigNormed_completeness dx psi hdx horth
  have hform : psiAt hbar E (eigNormed dx psi)
      (coeff dx (eigNormed dx psi) (psi0 sigma x0 momentum dx x)) 0 =
      fun y => ∑ i, coeff dx (eigNormed dx psi) (psi0 sigma x0 momentum dx x) i *
        eigNormed dx psi i y := by
    funext y
    unfold psiAt
    refine Finset.sum_congr rfl fun i _ => ?_
    rw [phase_at_zero, mul_one]
  rw [hform]
  exact reconstruct_at_coeff dx (eigNormed dx psi) hcomp (psi0 sigma x0 momentum dx x)

/-- Witness for C4 at a concrete valid parameter set: one interior grid point,
`σ = 1`, `dx = 1`, uniform primitive output. -/
theorem C4_reconstruction_at_t0_witness :
    psiAt 1 (fun _ : Fin 1 => (0 : ℝ)) (eigNormed 1 (fun _ _ : Fin 1 => (1 : ℂ)))
        (coeff 1 (eigNormed 1 (fun _ _ : Fin 1 => (1 : ℂ)))
          (psi0 1 0 0 1 (fun _ : Fin 1 => (0 : ℝ)))) 0 =
      psi0 1 0 0 1 (fun _ : Fin 1 => (0 : ℝ)) :=
  C4_reconstruction_at_t0 1 0 0 1 1 (fun _ => 0) (fun _ => 0) (fun _ _ => 1)
    (by norm_num) (by norm_num)
    (by
      intro i j
      fin_cases i
      fin_cases j
      simp)

/-- C3: for every emitted frame time `t`, the total probability
`Σ |Ψ(t)|² dx` of the spectrally reconstructed state equals 1, for every
valid parameter set (`σ > 0`, `dx > 0`, `M = N - 1 ≥ 1`), under the
eigendecomposition primitive's orthonormality contract: the normalization
established for the initial state (calculator.py lines 91-93) is conserved by
the reconstruction of lines 124-138. -/
theorem C3_probability_conservation {m : ℕ} (sigma x0 momentum dx hbar : ℝ)
    (x E : Fin (m + 1) → ℝ) (psi : Fin (m + 1) → Fin (m + 1) → ℂ) (t : ℝ)
    (hsig : 0 < sigma) (hdx : 0 < dx)
    (horth : ∀ i j, ∑ k, (starRingEnd ℂ) (psi i k) * psi j k =
      if i = j then 1 else 0) :
    totalProb dx (psiAt hbar E (eigNormed dx psi)
      (coeff dx (eigNormed dx psi) (psi0 sigma x0 momentum dx x)) t) = 1 := by
  have hrow := eigNormed_row_orth dx psi hdx horth
  have hcomp := eigNormed_completeness dx psi hdx horth
  have hform : psiAt hbar E (eigNormed dx psi)
      (coeff dx (eigNormed dx psi) (psi0 sigma x0 momentum dx x)) t =
      fun y => ∑ i, (coeff dx (eigNormed dx psi) (psi0 sigma x0 momentum dx x) i *
        Complex.exp (-Complex.I * ((E i : ℝ) : ℂ) * (t : ℂ) / (hbar : ℂ))) *
          eigNormed dx psi i y := by
    funext y
    unfold psiAt
    refine Finset.sum_congr rfl fun i _ => ?_
    ring
  have hG := norm_of_expansion dx (eigNormed dx psi)
    (fun i => coeff dx (eigNormed dx psi) (psi0 sigma x0 momentum dx x) i *
      Complex.exp (-Complex.I * ((E i : ℝ) : ℂ) * (t : ℂ) / (hbar : ℂ))) hrow
  have hG0 := norm_of_expansion dx (eigNormed dx psi)
    (coeff dx (eigNormed dx psi) (psi0 sigma x0 momentum dx x)) hrow
  have hrecon := reconstruct_at_coeff dx (eigNormed dx psi) hcomp
    (psi0 sigma x0 momentum dx x)
  rw [hrecon] at hG0
  have hnorm : totalProb dx (psi0 sigma x0 momentum dx x) = 1 :=
    psi0_totalProb sigma x0 momentum dx x hdx
  have hfinal : ((totalProb dx (psiAt hbar E (eigNormed dx psi)
      (coeff dx (eigNormed dx psi) (psi0 sigma x0 momentum dx x)) t) : ℝ) : ℂ) =
      ((1 : ℝ) : ℂ) := by
    rw [hform, hG]
    calc ∑ i, ((Complex.normSq (coeff dx (eigNormed dx psi)
            (psi0 sigma x0 momentum dx x) i *
          Complex.exp (-Complex.I * ((E i : ℝ) : ℂ) * (t : ℂ) / (hbar : ℂ))) : ℝ) : ℂ)
        = ∑ i, ((Complex.normSq (coeff dx (eigNormed dx psi)
            (psi0 sigma x0 momentum dx x) i) : ℝ) : ℂ) := by
          refine Finset.sum_congr rfl fun i _ => ?_
          rw [Complex.normSq_mul, normSq_phase, mul_one]
      _ = ((totalProb dx (psi0 sigma x0 momentum dx x) : ℝ) : ℂ) := hG0.symm
      _ = ((1 : ℝ) : ℂ) := by rw [hnorm]
  exact Complex.ofReal_inj.mp hfinal

/-- Witness for C3 at a concrete valid parameter set and frame time `t = 1`. -/
theorem C3_probability_conservation_witness :
    totalProb 1 (psiAt 1 (fun _ : Fin 1 => (0 : ℝ)) (eigNormed 1 (fun _ _ : Fin 1 => (1 : ℂ)))
      (coeff 1 (eigNormed 1 (fun _ _ : Fin 1 => (1 : ℂ)))
        (psi0 1 0 0 1 (fun _ : Fin 1 => (0 : ℝ)))) 1) = 1 :=
  C3_probability_conservation 1 0 0 1 1 (fun _ => 0) (fun _ => 0) (fun _ _ => 1) 1
    (by norm_num) (by norm_num)
    (by
      intro i j
      fin_cases i
      fin_cases j
      simp)

end QTunnel
